import Mathlib

/-!
Shallow embedding of the CLAHE-style tiling / LUT / interpolation engine of
`src/examples/histogram_equalization/hist_equ.py`.

Modelling conventions:
* torch tensors are modelled as total functions from indices, or as `List`s
  along the one axis a claim is about (the 256-entry LUT axis);
* float arithmetic is idealised as exact rational arithmetic (`ℚ`);
* Python `//` on non-negative integers is `Nat` division, torch float `//`
  is `Int.floor` of the rational quotient, and a float-to-long cast
  (`Tensor.long()`) truncates toward zero;
* the batch and channel loops of the source are elementwise and are dropped:
  every definition models one image and one channel.
-/

set_option maxRecDepth 100000

namespace HistEqu

/-- Truncation toward zero of a rational, the behaviour of Python's
`Tensor.long()` cast on a (here exactly represented) float value. -/
def ratTrunc (q : ℚ) : ℤ := if 0 ≤ q then Int.floor q else Int.ceil q

/-- Quantisation `(interp_tiles * 255).long()` from `compute_equalized_tiles`
(line 308): a pixel value in `[0,1]` becomes an integer bin in `[0,255]`. -/
def quantize (v : ℚ) : ℤ := ratTrunc (v * 255)

/-- The quantised pixel as a natural number, used to index a 256-entry LUT
(the `torch.gather` calls of lines 313-348).  `Int.toNat` is a modelling
device; claim C10 is exactly that the index is already in `[0,255]` for
pixel values in `[0,1]`. -/
def quantN (v : ℚ) : ℕ := (quantize v).toNat

/-- Bin of a pixel value for `torch.histc(patch, bins=256, min=0, max=1)`:
values span 256 equal bins over `[0,1]`, the right edge landing in bin 255. -/
def histcBin (v : ℚ) : ℕ := min (Int.toNat (Int.floor (v * 256))) 255

/-- Model of `torch.histc(patch, bins=256, min=0, max=1)` (line 225): per-bin counts;
values outside `[0,1]` are ignored. -/
def histc (vals : List ℚ) : List ℕ :=
  (List.range 256).map fun b =>
    (vals.filter fun v => decide (0 ≤ v ∧ v ≤ 1 ∧ histcBin v = b)).length

/-- Running sums with accumulator, the spine of `torch.cumsum(histo, 0)`. -/
def cumsumFrom (acc : ℕ) : List ℕ → List ℕ
  | [] => []
  | x :: xs => (acc + x) :: cumsumFrom (acc + x) xs

/-- Model of `torch.cumsum(histo, 0)` (line 239). -/
def cumsum (l : List ℕ) : List ℕ := cumsumFrom 0 l

/-- The `step` of `compute_luts.lut` (lines 231-236): the histogram's bins
with a positive count are kept (`histo[histo > 0.999]` on integer-valued
counts), and `step = (nonzero_histo.sum() - nonzero_histo[-1]) // 255`;
an empty selection yields `step = 0`. -/
def lutStep (histo : List ℕ) : ℕ :=
  let nonzero := histo.filter fun x => decide (0 < x)
  (nonzero.sum - nonzero.getLastD 0) / 255

/-- The LUT of one tile as built by `compute_luts.lut` (lines 237-241,
exact-histogram path `diff=False`): all zeros when `step == 0`, otherwise
`(cumsum(histo) + step // 2) // step` shifted right by one position with a
leading 0 and clamped to `[0,255]`. -/
def lutOfHisto (histo : List ℕ) : List ℕ :=
  if lutStep histo = 0 then List.replicate histo.length 0
  else
    let step := lutStep histo
    let raw := (cumsum histo).map fun x => (x + step / 2) / step
    ((0 :: raw.dropLast).map fun x => min x 255)

/-- The `step` of `compute_luts_optim` (line 272): `step = (pixels - 1) / 255`
with Python true division, a rational that is in general not an integer. -/
def optimStep (pixels : ℕ) : ℚ := ((pixels : ℚ) - 1) / 255

/-- The LUT of one tile as built by `compute_luts_optim` (lines 272-274,
exact-histogram path `diff=False`): `(cumsum(histos) + (step // 2)) // step`
with float floor divisions, shifted right by one position with a leading 0
and clamped to `[0,255]`.  The result stays float in the source; its values
are the integers modelled here. -/
def lutOptim (histo : List ℕ) (pixels : ℕ) : List ℤ :=
  let step := optimStep pixels
  let raw : List ℤ :=
    (cumsum histo).map fun x : ℕ =>
      Int.floor (((x : ℚ) + (Int.floor (step / 2) : ℤ)) / step)
  ((0 :: raw.dropLast).map fun x => max 0 (min x 255))

/-- Python `math.ceil(a / b)` on integers (true division, then ceiling). -/
def pyCeilQ (a b : ℤ) : ℤ := Int.ceil ((a : ℚ) / (b : ℚ))

/-- The even-tile-size bump of `compute_tiles` (lines 152-154):
`kernel += 1 if kernel % 2 else 0`.  Lean's `%` on `ℤ` is Euclidean
remainder, which agrees with Python's `%` for the positive modulus 2. -/
def bumpEven (even : Bool) (k : ℤ) : ℤ :=
  if even = true ∧ k % 2 ≠ 0 then k + 1 else k

/-- The grid geometry computed by `compute_tiles` (lines 148-158): tile sizes
`TH = ceil(h / gridRows)`, `TW = ceil(w / gridCols)` (bumped to even when
requested) and the bottom/right padding making the padded image exactly
`TH*gridRows` by `TW*gridCols`. -/
structure GridGeometry where
  TH : ℤ
  TW : ℤ
  padBottom : ℤ
  padRight : ℤ
deriving Repr

/-- The tile-size and padding arithmetic of `compute_tiles` (lines 148-158). -/
def computeTileGeometry (h w gh gw : ℤ) (even : Bool) : GridGeometry :=
  let kv := bumpEven even (pyCeilQ h gh)
  let kh := bumpEven even (pyCeilQ w gw)
  { TH := kv, TW := kh, padBottom := kv * gh - h, padRight := kh * gw - w }

/-- The ways `compute_tiles` can fail at runtime.  `invalidGridError` is the
dedicated validation error postulated by the spec's error taxonomy; the code
contains no such check, so no path of `computeTiles` produces it. -/
inductive ComputeTilesError
  | invalidGridError
  | zeroDivisionError
  | reflectPadError
  | unfoldError
  | gridAssertError
deriving DecidableEq, Repr

/-- Bottom/right reflection padding index map of `F.pad` in reflect mode
(line 161): a padded coordinate `y ≥ n` reads the mirrored source row
`2n - 2 - y`. -/
def reflectIdx (n y : ℤ) : ℤ := if y < n then y else 2 * n - 2 - y

/-- Model of `compute_tiles` (lines 145-171) as a staged pipeline over an image of
size `h × w` given as a total function.  Failure modes of the Python code:
`math.ceil(h / g)` raises `ZeroDivisionError` when a grid count is 0;
`F.pad` in reflect mode rejects a positive padding that is not smaller
than the padded dimension (a negative padding crops); `Tensor.unfold` rejects
a non-positive window size or a window larger than the dimension; the final
`assert` compares the number of produced tiles with the grid size.  On
success it returns the statistics tiles (grid row, grid col, in-tile row,
in-tile col) together with the geometry. -/
def computeTiles (img : ℤ → ℤ → ℚ) (h w gh gw : ℤ) (even : Bool) :
    Except ComputeTilesError ((ℤ → ℤ → ℤ → ℤ → ℚ) × GridGeometry) :=
  if gh = 0 ∨ gw = 0 then .error .zeroDivisionError
  else
    let g := computeTileGeometry h w gh gw even
    let padV := g.padBottom
    let padH := g.padRight
    if (0 < padV ∨ 0 < padH) ∧ (h ≤ padV ∨ w ≤ padH) then .error .reflectPadError
    else
      let H := if 0 < padV ∨ 0 < padH then h + padV else h
      let W := if 0 < padV ∨ 0 < padH then w + padH else w
      let padded : ℤ → ℤ → ℚ := fun y x => img (reflectIdx h y) (reflectIdx w x)
      if g.TH ≤ 0 ∨ g.TW ≤ 0 ∨ H < g.TH ∨ W < g.TW then .error .unfoldError
      else if Int.fdiv H g.TH = gh ∧ Int.fdiv W g.TW = gw then
        .ok (fun gj gi r c => padded (gj * g.TH + r) (gi * g.TW + c), g)
      else .error .gridAssertError

/-- One statistics tile of the unfold in `compute_tiles` (lines 165-168):
`batch.unfold(2, TH, TH).unfold(3, TW, TW)` makes tile `(gj, gi)` read pixel
`(gj*TH + r, gi*TW + c)` of the padded image. -/
def extractTile (TH TW : ℕ) (img : ℕ → ℕ → ℚ) (gj gi r c : ℕ) : ℚ :=
  img (gj * TH + r) (gi * TW + c)

/-- Compositor-style reassembly (`main`, lines 391-392): concatenating the
tiles of each grid row along the width and the grid rows along the height
makes output pixel `(y, x)` read tile `(y / TH, x / TW)` at in-tile position
`(y % TH, x % TW)`. -/
def reassemble (TH TW : ℕ) (tiles : ℕ → ℕ → ℕ → ℕ → ℚ) (y x : ℕ) : ℚ :=
  tiles (y / TH) (x / TW) (y % TH) (x % TW)

/-- The statistics-tile extraction stage of `compute_tiles` in isolation
(lines 163-170), applied to an already padded image of size `H × W` with
window sizes `kv × kh`: `Tensor.unfold(d, k, k)` produces `⌊dim / k⌋`
windows, silently dropping any remainder rows/columns, and the subsequent
`assert` only compares that window count with the grid size. -/
def statTileExtract (H W kv kh GH GW : ℕ) (img : ℕ → ℕ → ℚ) :
    Option (ℕ → ℕ → ℕ → ℕ → ℚ) :=
  if H / kv = GH ∧ W / kh = GW then some (extractTile kv kh img) else none

/-- Model of `compute_interpolation_tiles` (lines 174-204): asserts that the padded
dimensions are exact multiples of the tile size (lines 189-190), extracts
query tiles of size `TH/2 × TW/2` by unfolding (lines 193-200), and finally
asserts that the produced tile sides equal `tile_size / 2` with Python true
division (lines 202-203), which fails whenever `TH` or `TW` is odd. -/
def computeInterpolationTiles (H W TH TW : ℕ) (img : ℕ → ℕ → ℚ) :
    Option (ℕ → ℕ → ℕ → ℕ → ℚ) :=
  if H % TH = 0 ∧ W % TW = 0 then
    if TH % 2 = 0 ∧ TW % 2 = 0 then some (extractTile (TH / 2) (TW / 2) img)
    else none
  else none

/-- Entry `k` of `torch.arange(2*th - 1, -1, -1).div(2*th - 1)` (line 301):
the vertical blending ramp over a pair of query tiles. -/
def ihFull (th k : ℕ) : ℚ := (2 * (th : ℚ) - 1 - (k : ℚ)) / (2 * (th : ℚ) - 1)

/-- The unfolded vertical weight tensor `ih` (lines 301-302): half 0 holds
ramp rows `0..th-1`, half 1 holds ramp rows `th..2th-1`; the weight is
constant along the tile width (`expand`). -/
def ihW (th half r : ℕ) : ℚ := ihFull th (half * th + r)

/-- Entry `k` of `torch.arange(2*tw - 1, -1, -1).div(2*tw - 1)` (line 303):
the horizontal blending ramp over a pair of query tiles. -/
def iwFull (tw k : ℕ) : ℚ := (2 * (tw : ℚ) - 1 - (k : ℚ)) / (2 * (tw : ℚ) - 1)

/-- The unfolded horizontal weight tensor `iw` (lines 303-304): half 0 holds
ramp columns `0..tw-1`, half 1 holds ramp columns `tw..2tw-1`; the weight is
constant along the tile height (`expand`). -/
def iwW (tw half c : ℕ) : ℚ := iwFull tw (half * tw + c)

/-- Row-major flattening `Tensor.flatten(-2, -1)` of a `th × tw` tile
(line 308). -/
def flattenTile (tw : ℕ) (t : ℕ → ℕ → ℤ) (k : ℕ) : ℤ := t (k / tw) (k % tw)

/-- Model of `torch.gather(lut, 1, idx)`: element `k` of the result is the LUT entry
at index `idx k` (lines 313-348).  The LUT is modelled as a total function
from the bin; claim C10 is that the gathered indices are in `[0,255]`. -/
def gatherRow (lut : ℕ → ℤ) (idx : ℕ → ℤ) (k : ℕ) : ℤ := lut (idx k).toNat

/-- Model of `Tensor.reshape(c, th, tw)` of a flattened row back to a tile
(lines 313-348). -/
def reshapeTile (tw : ℕ) (v : ℕ → ℤ) (r c : ℕ) : ℤ := v (r * tw + c)

/-- Model of `compute_equalized_tiles` (lines 279-352) for one query tile of one
image and channel.  `gh`/`gw` are the fine grid sizes (`2GH`, `2GW`) and
`th`/`tw` the query-tile sizes (`TH/2`, `TW/2`); `luts (gj) (gi) (bin)` is
the LUT table of parent tile `(gj, gi)` and `interp j i r c` the pixel of
query tile `(j, i)`.  Python's `max(0, j // 2 + j % 2 - 1)` is truncated
`ℕ` subtraction here.  The output tensor is `torch.long`, so storing the
float blend `ih * (t - b) + b` truncates it toward zero (`ratTrunc`); the
corner branch stores already-integral LUT values unchanged. -/
def computeEqualizedTile (gh gw th tw : ℕ) (luts : ℕ → ℕ → ℕ → ℤ)
    (interp : ℕ → ℕ → ℕ → ℕ → ℚ) (j i : ℕ) : ℕ → ℕ → ℤ :=
  let q : ℕ → ℤ := flattenTile tw fun r c => quantize (interp j i r c)
  let app : ℕ → ℕ → ℕ → ℕ → ℤ := fun gj gi => reshapeTile tw (gatherRow (luts gj gi) q)
  if (i = 0 ∨ i = gw - 1) ∧ (j = 0 ∨ j = gh - 1) then
    app (j / 2) (i / 2)
  else if i = 0 ∨ i = gw - 1 then
    let t := app (j / 2 + j % 2 - 1) (i / 2)
    let b := app (j / 2 + j % 2) (i / 2)
    fun r c => ratTrunc (ihW th ((j + 1) % 2) r * ((t r c : ℚ) - (b r c : ℚ)) + (b r c : ℚ))
  else if j = 0 ∨ j = gh - 1 then
    let l := app (j / 2) (i / 2 + i % 2 - 1)
    let rr := app (j / 2) (i / 2 + i % 2)
    fun r c => ratTrunc (iwW tw ((i + 1) % 2) c * ((l r c : ℚ) - (rr r c : ℚ)) + (rr r c : ℚ))
  else
    let tl := app (j / 2 + j % 2 - 1) (i / 2 + i % 2 - 1)
    let tr := app (j / 2 + j % 2 - 1) (i / 2 + i % 2)
    let bl := app (j / 2 + j % 2) (i / 2 + i % 2 - 1)
    let br := app (j / 2 + j % 2) (i / 2 + i % 2)
    fun r c =>
      let tq : ℚ := iwW tw ((i + 1) % 2) c * ((tl r c : ℚ) - (tr r c : ℚ)) + (tr r c : ℚ)
      let bq : ℚ := iwW tw ((i + 1) % 2) c * ((bl r c : ℚ) - (br r c : ℚ)) + (br r c : ℚ)
      ratTrunc (ihW th ((j + 1) % 2) r * (tq - bq) + bq)

/-- Concrete LUT table used to exhibit the truncation in the blended output:
parent row 0 maps every bin to 100, all other parents map to 0. -/
def lutsCex (gj : ℕ) (_gi : ℕ) (_bin : ℕ) : ℤ := if gj = 0 then 100 else 0

/-- Concrete all-zero query-tile set for the truncation counterexample. -/
def interpCex (_j _i _r _c : ℕ) : ℚ := 0

/-! ### Claim theorems and supporting lemmas -/

/-- C10: quantisation of a pixel value in `[0,1]` stays in `[0,255]`, so the
`torch.gather` lookups of `compute_equalized_tiles` into the 256-entry LUTs
are in bounds in all four region branches; values outside `[0,1]` are a
precondition violation. -/
theorem C10_quantize_in_bounds (v : ℚ) (h0 : 0 ≤ v) (h1 : v ≤ 1) :
    0 ≤ quantize v ∧ quantize v ≤ 255 ∧ (quantize v).toNat < 256 := by
  have hq : quantize v = ⌊v * 255⌋ := by
    rw [quantize, ratTrunc, if_pos (by positivity)]
  have hub : ⌊v * 255⌋ ≤ 255 := by
    have h255 : v * 255 ≤ 255 := by nlinarith
    calc ⌊v * 255⌋ ≤ ⌊(255 : ℚ)⌋ := Int.floor_le_floor h255
    _ = 255 := by norm_num
  have hlb : 0 ≤ ⌊v * 255⌋ := Int.floor_nonneg.mpr (by positivity)
  refine ⟨by rw [hq]; exact hlb, by rw [hq]; exact hub, ?_⟩
  rw [hq]; omega

/-- Witness for C10 at the concrete pixel value `1/2`. -/
theorem C10_witness :
    (0 ≤ (1/2 : ℚ)) ∧
      (0 ≤ quantize (1/2) ∧ quantize (1/2) ≤ 255 ∧ (quantize (1/2)).toNat < 256) :=
  ⟨by norm_num, C10_quantize_in_bounds (1/2) (by norm_num) (by norm_num)⟩

/-- C7: extracting the statistics tiles of a padded image and reassembling
them Compositor-style (concatenate along the width inside each grid row,
then concatenate the rows along the height) reproduces the padded image. -/
theorem C7_roundtrip (img : ℕ → ℕ → ℚ) (TH TW GH GW : ℕ)
    (hTH : 0 < TH) (hTW : 0 < TW) (y x : ℕ)
    (hy : y < GH * TH) (hx : x < GW * TW) :
    reassemble TH TW (extractTile TH TW img) y x = img y x := by
  have h1 : y / TH * TH + y % TH = y := by
    rw [mul_comm]; exact Nat.div_add_mod y TH
  have h2 : x / TW * TW + x % TW = x := by
    rw [mul_comm]; exact Nat.div_add_mod x TW
  simp [reassemble, extractTile, h1, h2]

/-- Witness for C7 on a concrete 4×4 padded image cut into 2×2 tiles. -/
theorem C7_witness :
    (0 < 2) ∧
      reassemble 2 2 (extractTile 2 2 (fun y x => (y : ℚ) * 10 + x)) 3 1
        = (fun y x : ℕ => (y : ℚ) * 10 + x) 3 1 :=
  ⟨by decide,
    C7_roundtrip (fun y x => (y : ℚ) * 10 + x) 2 2 2 2 (by decide) (by decide)
      3 1 (by decide) (by decide)⟩

/-- The bumped ceiling tile size covers the image: `h ≤ TH * gh`. -/
theorem le_bump_ceil_mul (even : Bool) (a g : ℤ) (hg : 0 < g) :
    a ≤ bumpEven even (pyCeilQ a g) * g := by
  have hgq : (0 : ℚ) < (g : ℚ) := by exact_mod_cast hg
  have hc : (a : ℚ) / (g : ℚ) ≤ (pyCeilQ a g : ℚ) := Int.le_ceil _
  have hac : (a : ℚ) ≤ (pyCeilQ a g : ℚ) * (g : ℚ) := (div_le_iff hgq).mp hc
  have h1 : a ≤ pyCeilQ a g * g := by exact_mod_cast hac
  have h2 : pyCeilQ a g ≤ bumpEven even (pyCeilQ a g) := by
    rw [bumpEven]; split <;> omega
  have h3 : pyCeilQ a g * g ≤ bumpEven even (pyCeilQ a g) * g :=
    mul_le_mul_of_nonneg_right h2 hg.le
  omega

/-- C6: for positive grid counts the geometry of `compute_tiles` has the
spec's tile sizes (ceiling division, bumped to even on request), covers the
image (`TH*gridRows ≥ height`, `TW*gridCols ≥ width`), and its bottom/right
paddings are exactly the minimal non-negative amounts reaching that
coverage. -/
theorem C6_geometry (h w gh gw : ℤ) (even : Bool) (hgh : 0 < gh) (hgw : 0 < gw) :
    (computeTileGeometry h w gh gw even).TH = bumpEven even (pyCeilQ h gh)
  ∧ (computeTileGeometry h w gh gw even).TW = bumpEven even (pyCeilQ w gw)
  ∧ h ≤ (computeTileGeometry h w gh gw even).TH * gh
  ∧ w ≤ (computeTileGeometry h w gh gw even).TW * gw
  ∧ (computeTileGeometry h w gh gw even).padBottom
      = (computeTileGeometry h w gh gw even).TH * gh - h
  ∧ (computeTileGeometry h w gh gw even).padRight
      = (computeTileGeometry h w gh gw even).TW * gw - w
  ∧ 0 ≤ (computeTileGeometry h w gh gw even).padBottom
  ∧ 0 ≤ (computeTileGeometry h w gh gw even).padRight
  ∧ (∀ p : ℤ, 0 ≤ p → (computeTileGeometry h w gh gw even).TH * gh ≤ h + p →
      (computeTileGeometry h w gh gw even).padBottom ≤ p)
  ∧ (∀ p : ℤ, 0 ≤ p → (computeTileGeometry h w gh gw even).TW * gw ≤ w + p →
      (computeTileGeometry h w gh gw even).padRight ≤ p) := by
  have hv := le_bump_ceil_mul even h gh hgh
  have hh := le_bump_ceil_mul even w gw hgw
  refine ⟨rfl, rfl, hv, hh, rfl, rfl, ?_, ?_, ?_, ?_⟩
  · simpa [computeTileGeometry] using by omega
  · simpa [computeTileGeometry] using by omega
  · intro p hp hle
    simp only [computeTileGeometry] at hle ⊢
    omega
  · intro p hp hle
    simp only [computeTileGeometry] at hle ⊢
    omega

/-- Witness for C6 at `h = 8, w = 5, gridRows = 3, gridCols = 2` with even
tile sizes requested. -/
theorem C6_witness :
    (0 < (3:ℤ)) ∧ (0 < (2:ℤ)) ∧
      ((8:ℤ) ≤ (computeTileGeometry 8 5 3 2 true).TH * 3
        ∧ 0 ≤ (computeTileGeometry 8 5 3 2 true).padBottom) :=
  ⟨by decide, by decide,
    (C6_geometry 8 5 3 2 true (by decide) (by decide)).2.2.1,
    (C6_geometry 8 5 3 2 true (by decide) (by decide)).2.2.2.2.2.2.1⟩

/-- C9 (amended, query-tile half): `compute_interpolation_tiles` fails on
any padded image whose height or width is not an exact multiple of the
requested tile size, via the divisibility assertions of lines 189-190. -/
theorem C9_query_tiles_fail (H W TH TW : ℕ) (img : ℕ → ℕ → ℚ)
    (hne : H % TH ≠ 0 ∨ W % TW ≠ 0) :
    computeInterpolationTiles H W TH TW img = none := by
  rw [computeInterpolationTiles, if_neg]
  tauto

/-- Witness for C9 on a 5×4 padded image with tile size 2×2. -/
theorem C9_witness :
    ((5 % 2 ≠ 0 ∨ 4 % 2 ≠ 0) : Prop) ∧
      computeInterpolationTiles 5 4 2 2 (fun _ _ => (0:ℚ)) = none :=
  ⟨by decide, C9_query_tiles_fail 5 4 2 2 (fun _ _ => (0:ℚ)) (by decide)⟩

/-- A negative grid count makes the (bumped) ceiling tile size non-positive. -/
theorem bump_ceil_nonpos (even : Bool) (a g : ℤ) (ha : 1 ≤ a) (hg : g < 0) :
    bumpEven even (pyCeilQ a g) ≤ 0 := by
  have hgq : (g : ℚ) < 0 := by exact_mod_cast hg
  have haq : (0 : ℚ) ≤ (a : ℚ) := by
    have h0a : (0:ℤ) ≤ a := by omega
    exact_mod_cast h0a
  have hdiv : (a : ℚ) / (g : ℚ) ≤ 0 := div_nonpos_iff.mpr (Or.inl ⟨haq, hgq.le⟩)
  have hceil : pyCeilQ a g ≤ 0 := by
    rw [pyCeilQ]
    have hc : ⌈(a : ℚ) / (g : ℚ)⌉ ≤ ((0:ℤ) : ℤ) := Int.ceil_le.mpr (by exact_mod_cast hdiv)
    exact hc
  by_cases hcond : even = true ∧ pyCeilQ a g % 2 ≠ 0
  · rw [bumpEven, if_pos hcond]
    have hodd : pyCeilQ a g % 2 ≠ 0 := hcond.2
    omega
  · rw [bumpEven, if_neg hcond]
    exact hceil

/-- C8 (amended): every call of `compute_tiles` with a non-positive grid
count fails, but not through a dedicated validation error: a zero count
raises `ZeroDivisionError` inside the tile-size planning, while a negative
count passes planning and fails later (at the reflection padding or at the
unfold during tile extraction). -/
theorem C8_nonpositive_grid_fails (img : ℤ → ℤ → ℚ) (h w gh gw : ℤ)
    (even : Bool) (hh : 1 ≤ h) (hw : 1 ≤ w) (hg : gh ≤ 0 ∨ gw ≤ 0) :
    (∃ e, computeTiles img h w gh gw even = .error e)
  ∧ ((gh = 0 ∨ gw = 0) →
      computeTiles img h w gh gw even = .error .zeroDivisionError) := by
  constructor
  · by_cases hz : gh = 0 ∨ gw = 0
    · exact ⟨_, by rw [computeTiles, if_pos hz]⟩
    · have hneg : gh < 0 ∨ gw < 0 := by omega
      have hker : (computeTileGeometry h w gh gw even).TH ≤ 0
          ∨ (computeTileGeometry h w gh gw even).TW ≤ 0 := by
        rcases hneg with hneg | hneg
        · exact Or.inl (bump_ceil_nonpos even h gh hh hneg)
        · exact Or.inr (bump_ceil_nonpos even w gw hw hneg)
      simp only [computeTiles, if_neg hz]
      split_ifs <;> first | exact ⟨_, rfl⟩ | (exfalso; omega)
  · intro hz
    rw [computeTiles, if_pos hz]

/-- Witness for C8 at a zero grid-row count on an 4×4 image. -/
theorem C8_witness :
    (1 ≤ (4:ℤ)) ∧ ((0:ℤ) ≤ 0 ∨ (3:ℤ) ≤ 0) ∧
      (∃ e, computeTiles (fun _ _ => (0:ℚ)) 4 4 0 3 true = .error e) :=
  ⟨by decide, Or.inl (by decide),
    (C8_nonpositive_grid_fails (fun _ _ => (0:ℚ)) 4 4 0 3 true
      (by decide) (by decide) (Or.inl (by decide))).1⟩

/-- Counterexample to C8 as stated: with grid counts `(-1, -1)` on an 8×8
image the planning arithmetic succeeds and `compute_tiles` only fails at
the unfold during tile extraction, with an unfold-size error rather than a
dedicated `InvalidGridError` raised before any tile work. -/
theorem C8_cex :
    computeTiles (fun _ _ => (0:ℚ)) 8 8 (-1) (-1) true
        = .error .unfoldError
      ∧ ComputeTilesError.unfoldError ≠ ComputeTilesError.invalidGridError := by
  constructor
  · have hceil : pyCeilQ 8 (-1) = -8 := by
      rw [pyCeilQ,
        show ((8:ℤ) : ℚ) / (((-1):ℤ) : ℚ) = (((-8):ℤ) : ℚ) by norm_num,
        Int.ceil_intCast]
    have hbump : bumpEven true (-8) = -8 := by
      rw [bumpEven, if_neg]
      intro hcon
      exact hcon.2 (by decide)
    have hgeom : computeTileGeometry 8 8 (-1) (-1) true
        = { TH := -8, TW := -8, padBottom := 0, padRight := 0 } := by
      simp only [computeTileGeometry, hceil, hbump]
      norm_num
    simp only [computeTiles, hgeom]
    norm_num
  · decide

theorem cumsumFrom_length : ∀ (l : List ℕ) (acc : ℕ),
    (cumsumFrom acc l).length = l.length
  | [], _ => rfl
  | x :: xs, acc => by
    simp only [cumsumFrom, List.length_cons]
    rw [cumsumFrom_length xs (acc + x)]

theorem cumsum_length (l : List ℕ) : (cumsum l).length = l.length :=
  cumsumFrom_length l 0

/-- Every running sum is at least the starting accumulator. -/
theorem cumsumFrom_getD_ge : ∀ (l : List ℕ) (acc k : ℕ), k < l.length →
    acc ≤ (cumsumFrom acc l).getD k 0
  | [], _, _, h => absurd h (by simp)
  | x :: xs, acc, 0, _ => by
    simp [cumsumFrom]
  | x :: xs, acc, k + 1, h => by
    simp only [cumsumFrom, List.getD_cons_succ]
    exact le_trans (Nat.le_add_right _ _)
      (cumsumFrom_getD_ge xs (acc + x) k (by simpa using h))

/-- Running sums are non-decreasing. -/
theorem cumsumFrom_getD_mono : ∀ (l : List ℕ) (acc k : ℕ), k + 1 < l.length →
    (cumsumFrom acc l).getD k 0 ≤ (cumsumFrom acc l).getD (k + 1) 0
  | [], _, _, h => absurd h (by simp)
  | x :: xs, acc, 0, h => by
    simp only [cumsumFrom, List.getD_cons_zero, List.getD_cons_succ]
    exact cumsumFrom_getD_ge xs (acc + x) 0 (by simpa using h)
  | x :: xs, acc, k + 1, h => by
    simp only [cumsumFrom, List.getD_cons_succ]
    exact cumsumFrom_getD_mono xs (acc + x) k (by simpa using h)

theorem cumsum_getD_mono (l : List ℕ) (k : ℕ) (h : k + 1 < l.length) :
    (cumsum l).getD k 0 ≤ (cumsum l).getD (k + 1) 0 :=
  cumsumFrom_getD_mono l 0 k h

/-- Reading `getD` through `map` when the function sends default to default. -/
theorem getD_map_d {α β : Type} (f : α → β) (l : List α) (n : ℕ) (dA : α)
    (dB : β) (hf : f dA = dB) : (l.map f).getD n dB = f (l.getD n dA) := by
  rw [List.getD_eq_getElem?_getD, List.getD_eq_getElem?_getD, List.getElem?_map]
  cases l[n]? <;> simp [hf]

/-- Reading `getD` through `dropLast` agrees with `getD` in range. -/
theorem getD_dropLast {α : Type} (l : List α) (k : ℕ) (d : α)
    (h : k < l.length - 1) : l.dropLast.getD k d = l.getD k d := by
  rw [List.getD_eq_getElem?_getD, List.getD_eq_getElem?_getD,
    List.getElem?_dropLast, if_pos h]

/-- A positive `step` makes the raw division map of `compute_luts` send a
zero cumulative count to 0. -/
theorem lut_div_zero (step : ℕ) (hs : step ≠ 0) : (0 + step / 2) / step = 0 := by
  have h2 : step / 2 < step := Nat.div_lt_self (Nat.pos_of_ne_zero hs) one_lt_two
  simp [Nat.div_eq_of_lt h2]

/-- The non-degenerate branch of `compute_luts.lut` at entry `k + 1`. -/
theorem lutOfHisto_getD_succ (histo : List ℕ) (hstep : lutStep histo ≠ 0)
    (k : ℕ) (hk : k + 1 < histo.length) :
    (lutOfHisto histo).getD (k + 1) 0
      = min (((cumsum histo).getD k 0 + lutStep histo / 2) / lutStep histo) 255 := by
  rw [lutOfHisto, if_neg hstep]
  rw [getD_map_d (fun x => min x 255) _ _ 0 0 (by simp), List.getD_cons_succ,
    getD_dropLast _ _ _ (by rw [List.length_map, cumsum_length]; omega),
    getD_map_d (fun x => (x + lutStep histo / 2) / lutStep histo) _ _ 0 0
      (lut_div_zero (lutStep histo) hstep)]

/-- Reading `getD` on a constant list with matching default gives that constant. -/
theorem getD_replicate {α : Type} (a : α) : ∀ (n k : ℕ),
    (List.replicate n a).getD k a = a
  | 0, _ => by simp
  | n + 1, 0 => by simp [List.replicate_succ]
  | n + 1, k + 1 => by
    simp only [List.replicate_succ, List.getD_cons_succ]
    exact getD_replicate a n k

/-- Entry 0 of a `compute_luts.lut` result is always 0. -/
theorem lutOfHisto_getD_zero (histo : List ℕ) :
    (lutOfHisto histo).getD 0 0 = 0 := by
  rw [lutOfHisto]
  split
  · exact getD_replicate 0 _ 0
  · rw [getD_map_d (fun x => min x 255) _ _ 0 0 (by simp), List.getD_cons_zero]
    simp

/-- A tile with at least two pixels has a positive real step in
`compute_luts_optim`. -/
theorem optimStep_pos (pixels : ℕ) (hpix : 2 ≤ pixels) :
    (0:ℚ) < optimStep pixels := by
  rw [optimStep]
  have hc : (2:ℚ) ≤ (pixels : ℚ) := by exact_mod_cast hpix
  have h1 : (0:ℚ) < (pixels : ℚ) - 1 := by linarith
  positivity

/-- A positive real step makes the raw floor-division map of
`compute_luts_optim` send a zero cumulative count to 0. -/
theorem lutOptim_div_zero (s : ℚ) (hs : 0 < s) :
    Int.floor ((((0:ℕ) : ℚ) + (Int.floor (s / 2) : ℤ)) / s) = 0 := by
  have h2 : (0:ℤ) ≤ ⌊s / 2⌋ := Int.floor_nonneg.mpr (by positivity)
  have h3 : (⌊s / 2⌋ : ℚ) ≤ s / 2 := Int.floor_le _
  rw [Int.floor_eq_zero_iff]
  constructor
  · apply div_nonneg _ hs.le
    have h2q : (0:ℚ) ≤ (⌊s / 2⌋ : ℚ) := by exact_mod_cast h2
    norm_num
    linarith
  · rw [div_lt_one hs]
    have h4 : s / 2 < s := by linarith
    norm_num
    linarith

/-- Entry `k + 1` of a `compute_luts_optim` result. -/
theorem lutOptim_getD_succ (histo : List ℕ) (pixels : ℕ) (hpix : 2 ≤ pixels)
    (k : ℕ) (hk : k + 1 < histo.length) :
    (lutOptim histo pixels).getD (k + 1) 0
      = max 0 (min (Int.floor ((((cumsum histo).getD k 0 : ℚ)
          + (Int.floor (optimStep pixels / 2) : ℤ)) / optimStep pixels)) 255) := by
  rw [lutOptim]
  rw [getD_map_d (fun x => max 0 (min x 255)) _ _ 0 0 (by simp), List.getD_cons_succ,
    getD_dropLast _ _ _ (by rw [List.length_map, cumsum_length]; omega),
    getD_map_d (fun x : ℕ =>
        Int.floor (((x : ℚ) + (Int.floor (optimStep pixels / 2) : ℤ)) / optimStep pixels))
      _ _ 0 0 (lutOptim_div_zero (optimStep pixels) (optimStep_pos pixels hpix))]

/-- Entry 0 of a `compute_luts_optim` result is always 0. -/
theorem lutOptim_getD_zero (histo : List ℕ) (pixels : ℕ) :
    (lutOptim histo pixels).getD 0 0 = 0 := by
  rw [lutOptim]
  rw [getD_map_d (fun x => max 0 (min x 255)) _ _ 0 0 (by simp), List.getD_cons_zero]
  simp

/-- C3: the LUT builders' contract.  For `compute_luts.lut` on any 256-bin
histogram: the LUT has length 256, entries in `[0,255]`, `lut[0] = 0`, and
it is non-decreasing whenever `step ≠ 0`.  For `compute_luts_optim` on any
256-bin histogram of a tile with at least 2 pixels (so that its real-valued
`step = (pixels-1)/255` is not 0; a 1-pixel tile would divide by the float
0): length 256, entries in `[0,255]`, `lut[0] = 0`, and non-decreasing
entries. -/
theorem C3_lut_contract (histo : List ℕ) (pixels : ℕ)
    (hlen : histo.length = 256) (hpix : 2 ≤ pixels) :
    (lutOfHisto histo).length = 256
  ∧ (∀ x ∈ lutOfHisto histo, x ≤ 255)
  ∧ (lutOfHisto histo).getD 0 0 = 0
  ∧ (lutStep histo ≠ 0 → ∀ k, k + 1 < 256 →
      (lutOfHisto histo).getD k 0 ≤ (lutOfHisto histo).getD (k + 1) 0)
  ∧ (lutOptim histo pixels).length = 256
  ∧ (∀ x ∈ lutOptim histo pixels, 0 ≤ x ∧ x ≤ 255)
  ∧ (lutOptim histo pixels).getD 0 0 = 0
  ∧ (∀ k, k + 1 < 256 →
      (lutOptim histo pixels).getD k 0 ≤ (lutOptim histo pixels).getD (k + 1) 0) := by
  have hs := optimStep_pos pixels hpix
  refine ⟨?_, ?_, lutOfHisto_getD_zero histo, ?_, ?_, ?_,
    lutOptim_getD_zero histo pixels, ?_⟩
  · rw [lutOfHisto]
    split
    · simp [hlen]
    · simp only [List.length_map, List.length_cons, List.length_dropLast,
        cumsum_length, hlen]
  · rw [lutOfHisto]
    split
    · intro x hx
      rw [List.eq_of_mem_replicate hx]
      norm_num
    · intro x hx
      rcases List.mem_map.mp hx with ⟨a, _, rfl⟩
      exact min_le_right _ _
  · intro hstep k hk
    cases k with
    | zero =>
      rw [lutOfHisto_getD_zero]
      exact Nat.zero_le _
    | succ k =>
      rw [lutOfHisto_getD_succ histo hstep k (by omega),
        lutOfHisto_getD_succ histo hstep (k + 1) (by omega)]
      exact min_le_min
        (Nat.div_le_div_right
          (Nat.add_le_add_right (cumsum_getD_mono histo k (by omega)) _))
        le_rfl
  · rw [lutOptim]
    simp only [List.length_map, List.length_cons, List.length_dropLast,
      cumsum_length, hlen]
  · rw [lutOptim]
    intro x hx
    rcases List.mem_map.mp hx with ⟨a, _, rfl⟩
    exact ⟨le_max_left _ _, max_le (by norm_num) (min_le_right _ _)⟩
  · intro k hk
    cases k with
    | zero =>
      rw [lutOptim_getD_zero]
      rw [lutOptim_getD_succ histo pixels hpix 0 (by omega)]
      exact le_max_left _ _
    | succ k =>
      rw [lutOptim_getD_succ histo pixels hpix k (by omega),
        lutOptim_getD_succ histo pixels hpix (k + 1) (by omega)]
      refine max_le_max le_rfl (min_le_min ?_ le_rfl)
      apply Int.floor_le_floor
      have hm : ((cumsum histo).getD k 0 : ℚ) ≤ ((cumsum histo).getD (k + 1) 0 : ℚ) := by
        exact_mod_cast cumsum_getD_mono histo k (by omega)
      gcongr

/-- Witness for C3 at the one-count-per-bin histogram of a 256-pixel tile. -/
theorem C3_witness :
    (List.replicate 256 (1:ℕ)).length = 256 ∧ 2 ≤ 256 ∧
      ((lutOfHisto (List.replicate 256 1)).length = 256
        ∧ (lutOfHisto (List.replicate 256 1)).getD 0 0 = 0) :=
  ⟨by decide, by decide,
    (C3_lut_contract (List.replicate 256 1) 256 (by decide) (by decide)).1,
    (C3_lut_contract (List.replicate 256 1) 256 (by decide) (by decide)).2.2.1⟩

theorem histc_length (vals : List ℚ) : (histc vals).length = 256 := by
  simp [histc]

/-- Filtering the positives out of a mapped range with a single possibly
non-zero value keeps exactly that value. -/
theorem filter_pos_map_single (g : ℕ → ℕ) (b₀ : ℕ)
    (hg : ∀ b, b ≠ b₀ → g b = 0) :
    ∀ m : ℕ, ((List.range m).map g).filter (fun x => decide (0 < x))
      = if b₀ < m ∧ 0 < g b₀ then [g b₀] else []
  | 0 => by simp
  | m + 1 => by
    rw [List.range_succ, List.map_append, List.filter_append,
      filter_pos_map_single g b₀ hg m]
    by_cases hbm : b₀ = m
    · subst hbm
      rw [if_neg (fun hcon => absurd hcon.1 (lt_irrefl b₀))]
      by_cases hpos : 0 < g b₀
      · rw [if_pos ⟨Nat.lt_succ_self b₀, hpos⟩]
        simp [hpos]
      · rw [if_neg (fun hcon => hpos hcon.2)]
        simp [Nat.eq_zero_of_not_pos hpos]
    · have hgm : g m = 0 := hg m (fun hEq => hbm hEq.symm)
      have hiff : (b₀ < m + 1 ∧ 0 < g b₀) ↔ (b₀ < m ∧ 0 < g b₀) := by
        constructor <;> intro hcon <;> refine ⟨?_, hcon.2⟩ <;> omega
      rw [if_congr hiff rfl rfl]
      simp [hgm]

/-- The histogram of a uniform tile concentrates all pixels in one bin. -/
theorem histc_replicate (v : ℚ) (n : ℕ) (h0 : 0 ≤ v) (h1 : v ≤ 1) :
    histc (List.replicate n v)
      = (List.range 256).map fun b => if histcBin v = b then n else 0 := by
  rw [histc]
  apply List.map_congr_left
  intro b _
  rw [List.filter_replicate]
  by_cases hb : histcBin v = b
  · rw [if_pos (by simp [h0, h1, hb]), if_pos hb, List.length_replicate]
  · rw [if_neg (by simp [h0, h1, hb]), if_neg hb, List.length_nil]

/-- C4 (amended, `compute_luts` half): on a uniform tile the histogram is a
single spike, `compute_luts.lut` takes the `step == 0` degenerate path and
returns the all-zero 256-entry LUT; being a total function, it raises no
error.  (`compute_luts_optim` has no such degenerate path, see the
counterexample.) -/
theorem C4_uniform_zero (v : ℚ) (n : ℕ) (h0 : 0 ≤ v) (h1 : v ≤ 1)
    (hn : 1 ≤ n) :
    lutStep (histc (List.replicate n v)) = 0
  ∧ lutOfHisto (histc (List.replicate n v)) = List.replicate 256 0 := by
  have hbin : histcBin v < 256 := by
    have hmin := min_le_right (Int.toNat (Int.floor (v * 256))) 255
    rw [histcBin]
    omega
  have hfil : (histc (List.replicate n v)).filter (fun x => decide (0 < x))
      = [n] := by
    rw [histc_replicate v n h0 h1,
      filter_pos_map_single (fun b => if histcBin v = b then n else 0)
        (histcBin v) (fun b hb => if_neg (fun hEq => hb hEq.symm)) 256,
      if_pos ⟨hbin, by simp; omega⟩]
    simp
  have hstep : lutStep (histc (List.replicate n v)) = 0 := by
    rw [lutStep, hfil]
    simp
  refine ⟨hstep, ?_⟩
  rw [lutOfHisto, if_pos hstep, histc_length]

/-- Witness for C4 on a 3-pixel uniform tile of value `1/2`. -/
theorem C4_witness :
    (0 ≤ (1/2 : ℚ)) ∧ ((1/2 : ℚ) ≤ 1) ∧ (1 ≤ 3) ∧
      lutOfHisto (histc (List.replicate 3 (1/2 : ℚ))) = List.replicate 256 0 :=
  ⟨by norm_num, by norm_num, by norm_num,
    (C4_uniform_zero (1/2) 3 (by norm_num) (by norm_num) (by norm_num)).2⟩

/-- Counterexample to C4 as stated: `compute_luts_optim` has no `step == 0`
degenerate path.  On a uniform 8×8 tile (64 pixels, all of value 0) its real
step is `63/255`, and the resulting LUT is not all zeros: entry 1 is already
clamped to 255. -/
theorem C4_cex :
    lutOptim (histc (List.replicate 64 (0:ℚ))) 64 ≠ List.replicate 256 (0:ℤ) := by
  have hbin : histcBin (0:ℚ) = 0 := by
    rw [histcBin]
    norm_num
  have hlist : histc (List.replicate 64 (0:ℚ)) = 64 :: List.replicate 255 0 := by
    rw [histc_replicate (0:ℚ) 64 le_rfl (by norm_num), hbin]
    decide
  have hcum : (cumsum (64 :: List.replicate 255 (0:ℕ))).getD 0 0 = 64 := rfl
  have hstepv : optimStep 64 = 63 / 255 := by
    rw [optimStep]
    norm_num
  have hsucc := lutOptim_getD_succ (64 :: List.replicate 255 0) 64
    (by norm_num) 0 (by simp)
  rw [hcum, hstepv] at hsucc
  rw [show (⌊(63 / 255 : ℚ) / 2⌋ : ℤ) = 0 by norm_num] at hsucc
  rw [show ((((64:ℕ) : ℚ) + ((0:ℤ) : ℚ)) / (63 / 255 : ℚ)) = 16320 / 63 by norm_num] at hsucc
  rw [show (⌊(16320 / 63 : ℚ)⌋ : ℤ) = 259 by norm_num [Int.floor_eq_iff]] at hsucc
  intro heq
  rw [hlist] at heq
  have h255 := hsucc
  rw [heq] at h255
  rw [getD_replicate (0:ℤ) 256 (0 + 1)] at h255
  norm_num at h255

/-- C2 (amended): the two LUT builders agree on the one-count-per-bin
histogram of a 256-pixel tile (real step exactly 1), where both produce the
identity ramp; the histogram sums exactly to `total = 256`. -/
theorem C2_allones_agree :
    (List.replicate 256 (1:ℕ)).sum = 256
  ∧ (lutOfHisto (List.replicate 256 1)).map (fun n : ℕ => (n : ℤ))
      = lutOptim (List.replicate 256 1) 256 := by
  refine ⟨by decide, ?_⟩
  have hstepv : optimStep 256 = 1 := by
    rw [optimStep]
    norm_num
  have hfun : (fun x : ℕ =>
      Int.floor (((x : ℚ) + (Int.floor (optimStep 256 / 2) : ℤ)) / optimStep 256))
      = fun x : ℕ => (x : ℤ) := by
    funext x
    rw [hstepv]
    norm_num [Int.floor_natCast]
  rw [lutOptim, hfun]
  decide

/-- Counterexample to C2 as stated: for the single-spike histogram of a
uniform 256-pixel tile (histogram sums exactly to `total = 256`),
`compute_luts` returns the all-zero LUT (its integer step is 0) while
`compute_luts_optim` (real step 1) returns a LUT whose entry 1 is 255. -/
theorem C2_cex :
    (256 :: List.replicate 255 (0:ℕ)).sum = 256
  ∧ (lutOfHisto (256 :: List.replicate 255 0)).map (fun n : ℕ => (n : ℤ))
      ≠ lutOptim (256 :: List.replicate 255 0) 256 := by
  refine ⟨by decide, ?_⟩
  have hstepv : optimStep 256 = 1 := by
    rw [optimStep]
    norm_num
  have hcum : (cumsum (256 :: List.replicate 255 (0:ℕ))).getD 0 0 = 256 := rfl
  have hsucc := lutOptim_getD_succ (256 :: List.replicate 255 0) 256
    (by norm_num) 0 (by simp)
  rw [hcum, hstepv] at hsucc
  rw [show (⌊(1 : ℚ) / 2⌋ : ℤ) = 0 by norm_num] at hsucc
  rw [show ((((256:ℕ) : ℚ) + ((0:ℤ) : ℚ)) / (1 : ℚ)) = ((256 : ℤ) : ℚ) by norm_num,
    Int.floor_intCast] at hsucc
  intro heq
  have hL : ((lutOfHisto (256 :: List.replicate 255 0)).map
      (fun n : ℕ => (n : ℤ))).getD (0 + 1) 0 = 0 := by decide
  rw [heq, hsucc] at hL
  norm_num at hL

/-- Row-major index decomposition: the quotient recovers the row. -/
theorem flat_div (r c tw : ℕ) (hc : c < tw) : (r * tw + c) / tw = r := by
  have htw : 0 < tw := lt_of_le_of_lt (Nat.zero_le c) hc
  rw [mul_comm r tw, Nat.mul_add_div htw, Nat.div_eq_of_lt hc]
  omega

/-- Row-major index decomposition: the remainder recovers the column. -/
theorem flat_mod (r c tw : ℕ) (hc : c < tw) : (r * tw + c) % tw = c := by
  rw [mul_comm r tw, Nat.mul_add_mod, Nat.mod_eq_of_lt hc]

/-- The flatten / gather / reshape round trip of `compute_equalized_tiles`:
applying a parent LUT to the flattened quantised tile and reshaping is a
per-pixel LUT lookup. -/
theorem gather_app_eval (luts : ℕ → ℕ → ℕ → ℤ) (interp : ℕ → ℕ → ℕ → ℕ → ℚ)
    (j i gj gi r c tw : ℕ) (hc : c < tw) :
    reshapeTile tw (gatherRow (luts gj gi)
        (flattenTile tw fun rr cc => quantize (interp j i rr cc))) r c
      = luts gj gi (quantN (interp j i r c)) := by
  simp only [reshapeTile, gatherRow, flattenTile, quantN,
    flat_div r c tw hc, flat_mod r c tw hc]

/-- C5: a corner query tile is equalized by applying the single parent LUT
at grid cell `(j/2, i/2)` to each quantised pixel, with no blending; and
with `gridRows = gridCols = 1` (fine grid 2×2) every query tile is a corner,
so the whole output applies the single global LUT `luts 0 0`. -/
theorem C5_corner_direct (gh gw th tw : ℕ) (luts : ℕ → ℕ → ℕ → ℤ)
    (interp : ℕ → ℕ → ℕ → ℕ → ℚ) (j i r c : ℕ) (hc : c < tw) :
    ((i = 0 ∨ i = gw - 1) ∧ (j = 0 ∨ j = gh - 1) →
      computeEqualizedTile gh gw th tw luts interp j i r c
        = luts (j / 2) (i / 2) (quantN (interp j i r c)))
  ∧ (gh = 2 → gw = 2 → j < 2 → i < 2 →
      computeEqualizedTile gh gw th tw luts interp j i r c
        = luts 0 0 (quantN (interp j i r c))) := by
  have hmain : ((i = 0 ∨ i = gw - 1) ∧ (j = 0 ∨ j = gh - 1)) →
      computeEqualizedTile gh gw th tw luts interp j i r c
        = luts (j / 2) (i / 2) (quantN (interp j i r c)) := by
    intro hcorner
    rw [computeEqualizedTile, if_pos hcorner]
    exact gather_app_eval luts interp j i (j / 2) (i / 2) r c tw hc
  refine ⟨hmain, ?_⟩
  intro hgh hgw hj hi
  have hcorner : (i = 0 ∨ i = gw - 1) ∧ (j = 0 ∨ j = gh - 1) := by
    subst hgh hgw
    constructor <;> omega
  rw [hmain hcorner]
  have hj2 : j / 2 = 0 := by omega
  have hi2 : i / 2 = 0 := by omega
  rw [hj2, hi2]

/-- Witness for C5 on a 2×2 fine grid (single statistics tile). -/
theorem C5_witness :
    (0 < 1) ∧
      computeEqualizedTile 2 2 1 1 (fun _ _ b => (b : ℤ))
          (fun _ _ _ _ => (1/2 : ℚ)) 1 1 0 0
        = (fun _ _ b : ℕ => (b : ℤ)) 0 0
            (quantN ((fun _ _ _ _ : ℕ => (1/2 : ℚ)) 1 1 0 0)) :=
  ⟨by decide,
    (C5_corner_direct 2 2 1 1 (fun _ _ b => (b : ℤ))
      (fun _ _ _ _ => (1/2 : ℚ)) 1 1 0 0 (by decide)).2 rfl rfl
      (by decide) (by decide)⟩

/-- C1 (amended): for border and interior query tiles the stored output is
the truncation toward zero (`Tensor.long()`, a floor for these non-negative
values) of the bilinear blend `w*(A - B) + B` of the neighbour LUTs applied
to the quantised pixels, with neighbour grid indices
`max(0, j//2 + j%2 - 1)` and `j//2 + j%2` (truncated subtraction here, and
the analogous expressions in `i`) and the weight for ramp row
`((j+1)%2)*TH_half + r` equal to `(2*TH_half - 1 - row)/(2*TH_half - 1)`
(the horizontal weight symmetric over the tile width). -/
theorem C1_blend_floor (gh gw th tw : ℕ) (luts : ℕ → ℕ → ℕ → ℤ)
    (interp : ℕ → ℕ → ℕ → ℕ → ℚ) (j i r c : ℕ) (hc : c < tw) :
    ((i = 0 ∨ i = gw - 1) → ¬(j = 0 ∨ j = gh - 1) →
      computeEqualizedTile gh gw th tw luts interp j i r c
        = ratTrunc
            ((2 * (th : ℚ) - 1 - (((j + 1) % 2 * th + r : ℕ) : ℚ))
                / (2 * (th : ℚ) - 1)
              * ((luts (j / 2 + j % 2 - 1) (i / 2) (quantN (interp j i r c)) : ℚ)
                  - (luts (j / 2 + j % 2) (i / 2) (quantN (interp j i r c)) : ℚ))
              + (luts (j / 2 + j % 2) (i / 2) (quantN (interp j i r c)) : ℚ)))
  ∧ (¬(i = 0 ∨ i = gw - 1) → (j = 0 ∨ j = gh - 1) →
      computeEqualizedTile gh gw th tw luts interp j i r c
        = ratTrunc
            ((2 * (tw : ℚ) - 1 - (((i + 1) % 2 * tw + c : ℕ) : ℚ))
                / (2 * (tw : ℚ) - 1)
              * ((luts (j / 2) (i / 2 + i % 2 - 1) (quantN (interp j i r c)) : ℚ)
                  - (luts (j / 2) (i / 2 + i % 2) (quantN (interp j i r c)) : ℚ))
              + (luts (j / 2) (i / 2 + i % 2) (quantN (interp j i r c)) : ℚ)))
  ∧ (¬(i = 0 ∨ i = gw - 1) → ¬(j = 0 ∨ j = gh - 1) →
      computeEqualizedTile gh gw th tw luts interp j i r c
        = ratTrunc
            ((2 * (th : ℚ) - 1 - (((j + 1) % 2 * th + r : ℕ) : ℚ))
                / (2 * (th : ℚ) - 1)
              * (((2 * (tw : ℚ) - 1 - (((i + 1) % 2 * tw + c : ℕ) : ℚ))
                    / (2 * (tw : ℚ) - 1)
                  * ((luts (j / 2 + j % 2 - 1) (i / 2 + i % 2 - 1)
                        (quantN (interp j i r c)) : ℚ)
                      - (luts (j / 2 + j % 2 - 1) (i / 2 + i % 2)
                          (quantN (interp j i r c)) : ℚ))
                  + (luts (j / 2 + j % 2 - 1) (i / 2 + i % 2)
                      (quantN (interp j i r c)) : ℚ))
                - ((2 * (tw : ℚ) - 1 - (((i + 1) % 2 * tw + c : ℕ) : ℚ))
                    / (2 * (tw : ℚ) - 1)
                  * ((luts (j / 2 + j % 2) (i / 2 + i % 2 - 1)
                        (quantN (interp j i r c)) : ℚ)
                      - (luts (j / 2 + j % 2) (i / 2 + i % 2)
                          (quantN (interp j i r c)) : ℚ))
                  + (luts (j / 2 + j % 2) (i / 2 + i % 2)
                      (quantN (interp j i r c)) : ℚ)))
              + ((2 * (tw : ℚ) - 1 - (((i + 1) % 2 * tw + c : ℕ) : ℚ))
                  / (2 * (tw : ℚ) - 1)
                * ((luts (j / 2 + j % 2) (i / 2 + i % 2 - 1)
                      (quantN (interp j i r c)) : ℚ)
                    - (luts (j / 2 + j % 2) (i / 2 + i % 2)
                        (quantN (interp j i r c)) : ℚ))
                + (luts (j / 2 + j % 2) (i / 2 + i % 2)
                    (quantN (interp j i r c)) : ℚ)))) := by
  refine ⟨?_, ?_, ?_⟩
  · intro h1 h2
    rw [computeEqualizedTile, if_neg (fun hco => h2 hco.2), if_pos h1]
    simp only [reshapeTile, gatherRow, flattenTile, ihW, ihFull, quantN,
      flat_div r c tw hc, flat_mod r c tw hc]
  · intro h1 h2
    rw [computeEqualizedTile, if_neg (fun hco => h1 hco.1), if_neg h1, if_pos h2]
    simp only [reshapeTile, gatherRow, flattenTile, iwW, iwFull, quantN,
      flat_div r c tw hc, flat_mod r c tw hc]
  · intro h1 h2
    rw [computeEqualizedTile, if_neg (fun hco => h1 hco.1), if_neg h1, if_neg h2]
    simp only [reshapeTile, gatherRow, flattenTile, ihW, ihFull, iwW, iwFull,
      quantN, flat_div r c tw hc, flat_mod r c tw hc]

/-- Witness for C1 on a horizontal-border tile of a 4×2 fine grid. -/
theorem C1_witness :
    ((0 : ℕ) = 0 ∨ (0 : ℕ) = 2 - 1) ∧ ¬((1 : ℕ) = 0 ∨ (1 : ℕ) = 4 - 1) ∧
      computeEqualizedTile 4 2 2 1 lutsCex interpCex 1 0 0 0
        = ratTrunc
            ((2 * (2 : ℚ) - 1 - (((1 + 1) % 2 * 2 + 0 : ℕ) : ℚ))
                / (2 * (2 : ℚ) - 1)
              * ((lutsCex (1 / 2 + 1 % 2 - 1) (0 / 2)
                    (quantN (interpCex 1 0 0 0)) : ℚ)
                  - (lutsCex (1 / 2 + 1 % 2) (0 / 2)
                      (quantN (interpCex 1 0 0 0)) : ℚ))
              + (lutsCex (1 / 2 + 1 % 2) (0 / 2)
                  (quantN (interpCex 1 0 0 0)) : ℚ)) :=
  ⟨Or.inl rfl, by decide,
    (C1_blend_floor 4 2 2 1 lutsCex interpCex 1 0 0 0 (by decide)).1
      (Or.inl rfl) (by decide)⟩

/-- Counterexample to C1 as stated: the stored output is a `torch.long`
tensor, so it is the truncation of the blend, not the blend itself.  On a
4×2 fine grid with 2×1 query tiles, LUTs mapping parent row 0 to 100 and
parent row 1 to 0, the horizontal-border tile `(1,0)` at pixel `(1,0)` has
blend `2/3 * 100 = 200/3`, but the stored output is 66. -/
theorem C1_cex :
    ((computeEqualizedTile 4 2 2 1 lutsCex interpCex 1 0 1 0 : ℤ) : ℚ)
      ≠ (2 * (2 : ℚ) - 1 - (((1 + 1) % 2 * 2 + 1 : ℕ) : ℚ))
            / (2 * (2 : ℚ) - 1)
          * ((lutsCex (1 / 2 + 1 % 2 - 1) (0 / 2)
                (quantN (interpCex 1 0 1 0)) : ℚ)
              - (lutsCex (1 / 2 + 1 % 2) (0 / 2)
                  (quantN (interpCex 1 0 1 0)) : ℚ))
          + (lutsCex (1 / 2 + 1 % 2) (0 / 2)
              (quantN (interpCex 1 0 1 0)) : ℚ) := by
  have h1 : computeEqualizedTile 4 2 2 1 lutsCex interpCex 1 0 1 0
      = ratTrunc
          ((2 * (2 : ℚ) - 1 - (((1 + 1) % 2 * 2 + 1 : ℕ) : ℚ))
              / (2 * (2 : ℚ) - 1)
            * ((lutsCex (1 / 2 + 1 % 2 - 1) (0 / 2)
                  (quantN (interpCex 1 0 1 0)) : ℚ)
                - (lutsCex (1 / 2 + 1 % 2) (0 / 2)
                    (quantN (interpCex 1 0 1 0)) : ℚ))
            + (lutsCex (1 / 2 + 1 % 2) (0 / 2)
                (quantN (interpCex 1 0 1 0)) : ℚ)) := by
    rw [computeEqualizedTile, if_neg (by decide), if_pos (by decide)]
    simp only [reshapeTile, gatherRow, flattenTile, ihW, ihFull, quantN,
      flat_div 1 0 1 (by decide), flat_mod 1 0 1 (by decide), Nat.cast_ofNat]
  have hA : (2 * (2 : ℚ) - 1 - (((1 + 1) % 2 * 2 + 1 : ℕ) : ℚ))
          / (2 * (2 : ℚ) - 1)
        * ((lutsCex (1 / 2 + 1 % 2 - 1) (0 / 2)
              (quantN (interpCex 1 0 1 0)) : ℚ)
            - (lutsCex (1 / 2 + 1 % 2) (0 / 2)
                (quantN (interpCex 1 0 1 0)) : ℚ))
        + (lutsCex (1 / 2 + 1 % 2) (0 / 2)
            (quantN (interpCex 1 0 1 0)) : ℚ) = 200 / 3 := by
    norm_num [lutsCex]
  have h66 : ratTrunc (200 / 3 : ℚ) = 66 := by
    rw [ratTrunc, if_pos (by norm_num)]
    norm_num [Int.floor_eq_iff]
  intro heq
  rw [h1, hA, h66] at heq
  norm_num at heq

/-- Counterexample to C9 as stated: the statistics-tile extraction of
`compute_tiles` has no divisibility check.  On a 5×4 padded image with
2×2 windows the unfold silently drops the last row, the tile-count
assertion passes, and extraction succeeds although `2 ∤ 5`. -/
theorem C9_cex :
    (statTileExtract 5 4 2 2 2 2 (fun _ _ => (0:ℚ))).isSome = true
      ∧ 5 % 2 ≠ 0 := by
  constructor
  · rw [statTileExtract, if_pos (by decide)]; rfl
  · decide

end HistEqu
